import Mathlib

/-!
Shallow embedding of the CLI's plugin/hook subsystem:
the hook manager (priority-ordered chains, per-handler timeout, isolated
failures), the suggestion engine (Levenshtein ranking), the bounded
command-history log, the command-not-found workflow, and the user-config
phase of the plugin loader.

Strings are modelled as `List Char` (`Str`).  JavaScript's
`Array.prototype.sort` with a consistent comparator is specified (ES2019)
to be a stable sort; the stable insertion sort `jsSort` is its model.
-/

abbrev Str := List Char

/-- JS `String.prototype.startsWith`. -/
def strStartsWith : Str → Str → Bool
  | _, [] => true
  | [], _ :: _ => false
  | c :: cs, p :: ps => c = p && strStartsWith cs ps

/-- JS `String.prototype.includes`: `strContains s pat` is true iff `pat`
occurs contiguously inside `s`. -/
def strContains : Str → Str → Bool
  | [], pat => pat.isEmpty
  | c :: cs, pat => strStartsWith (c :: cs) pat || strContains cs pat

/-- JS `String.prototype.split` with a single-character separator:
`"a:b".split(':') = ["a","b"]`, `"".split(':') = [""]`,
`":".split(':') = ["",""]`. -/
def splitChar (sep : Char) : Str → List Str
  | [] => [[]]
  | c :: cs =>
    if c = sep then [] :: splitChar sep cs
    else
      match splitChar sep cs with
      | [] => [[c]]
      | s :: ss => (c :: s) :: ss

/-- JS `Array.prototype.join(':')` on a list of segments. -/
def joinChar (sep : Char) (parts : List Str) : Str :=
  List.intercalate [sep] parts

/-- One inner cell pass of the Levenshtein dynamic program
(`fast-levenshtein` computes the same row-by-row recurrence).
`prev` slides over the previous row, `left` is the cell just computed. -/
def levRowAux (x : Char) : List Char → List Nat → Nat → List Nat
  | y :: ys, p0 :: p1 :: ps, left =>
    let cell := min (min (left + 1) (p1 + 1)) (p0 + if x = y then 0 else 1)
    cell :: levRowAux x ys (p1 :: ps) cell
  | _, _, _ => []

/-- Next row of the Levenshtein dynamic program. -/
def levNextRow (x : Char) (ys : List Char) (prev : List Nat) : List Nat :=
  match prev with
  | [] => []
  | p0 :: _ => (p0 + 1) :: levRowAux x ys prev (p0 + 1)

/-- Levenshtein edit distance, as computed by `fast-levenshtein`
(`levenshtein.get`); the `useCollator` option only changes character
comparison for locale-equivalent characters, modelled here as plain
character equality. -/
def levDist (xs ys : List Char) : Nat :=
  (xs.foldl (fun row x => levNextRow x ys row) (List.range (ys.length + 1))).getLastD 0

/-- Stable insertion of `x` into a sorted list: `x` is placed before the
first element `y` it compares no-later than (`le x y`), hence after every
earlier-inserted element that ties with it. -/
def jsInsert {α : Type} (le : α → α → Bool) (x : α) : List α → List α
  | [] => [x]
  | y :: ys => if le x y then x :: y :: ys else y :: jsInsert le x ys

/-- Model of `Array.prototype.sort(cmp)` for a consistent comparator
(`le a b` meaning `cmp(a,b) <= 0`): ES2019 specifies the sort to be
stable, and every stable sort consistent with the comparator produces the
same output, so a stable insertion sort is a faithful model. -/
def jsSort {α : Type} (le : α → α → Bool) : List α → List α
  | [] => []
  | x :: xs => jsInsert le x (jsSort le xs)

/-- Comparator `(a, b) => a.distance - b.distance` on `{distance, id}`
records: ascending by distance. -/
def distLe (p q : Nat × Str) : Bool := p.1 ≤ q.1

/-- JS `getOrderedSuggestions(target, possibilities, limit = 3)`:
map each candidate to `{distance, id}`, sort ascending by distance
(stable), take the first `limit`, project the ids.  The JS default for
`limit` is 3. -/
def getOrderedSuggestions (target : Str) (possibilities : List Str) (limit : Nat) : List Str :=
  (((jsSort distLe (possibilities.map fun id => (levDist target id, id))).take limit).map (·.2))

/-- JS `closest(target, possibilities)`: head of the distance-sorted list,
or the empty string when there are no candidates
(`sorted[0]?.id ?? ''`). -/
def closest (target : Str) (possibilities : List Str) : Str :=
  match (jsSort distLe (possibilities.map fun id => (levDist target id, id))).head? with
  | some p => p.2
  | none => []

/-- JS `findRelatedCommands(target, commandIDs, limit = 2)`: split the target
on `':'`, keep commands containing some segment, drop the target itself,
truncate to `limit`.  The JS default for `limit` is 2. -/
def findRelatedCommands (target : Str) (commandIDs : List Str) (limit : Nat) : List Str :=
  let parts := splitChar ':' target
  (((commandIDs.filter fun cmd => parts.any fun part => strContains cmd part).filter
      fun cmd => cmd ≠ target).take limit)

/-- JS `saveCommandHistory`: append an entry, then if the log exceeds 100
entries keep only the last 100 (`slice(-100)`).  The entry type is
abstract: the code stores `{command, timestamp}` records. -/
def saveCommandHistory {α : Type} (history : List α) (entry : α) : List α :=
  let h := history ++ [entry]
  if 100 < h.length then h.drop (h.length - 100) else h

/-! ### Hook manager -/

/-- Options accepted by `HookManager.register`; absent fields are filled
from the defaults `{priority: 10, timeout: 30000}`. -/
structure HookOptions where
  priority : Option Int := none
  timeout : Option Nat := none
deriving DecidableEq, Repr

/-- The merge `{...defaultOptions, ...options}` performed by `register`. -/
def mergeOptions (options : HookOptions) : Int × Nat :=
  (options.priority.getD 10, options.timeout.getD 30000)

/-- How a handler's invocation behaves, abstracting the JS function it
wraps: it settles successfully after `duration` ms, rejects (or throws)
after `duration` ms, or never settles. -/
inductive HandlerBehavior (V E : Type) where
  | ok (value : V) (duration : Nat)
  | err (error : E) (duration : Nat)
  | hang
deriving DecidableEq, Repr

/-- A `{fn, options}` record stored in a hook chain, after option
merging.  `idx` is the global registration sequence number, recorded so
that stability ("ties keep registration order") can be stated. -/
structure RegisteredHook (V E : Type) where
  behavior : HandlerBehavior V E
  priority : Int
  timeout : Nat
  idx : Nat
deriving DecidableEq, Repr

/-- The comparator `(a, b) => (b.options.priority || 0) - (a.options.priority || 0)`:
`a` sorts no later than `b` iff `b`'s priority is ≤ `a`'s. -/
def hookLe {V E : Type} (a b : RegisteredHook V E) : Bool :=
  b.priority ≤ a.priority

/-- An error captured in a `HookResult`: either the synthesized
`Hook '<name>' timed out after <ms>ms` error, or the handler's own
thrown/rejected error. -/
inductive HookError (E : Type) where
  | timedOut (name : Str) (ms : Nat)
  | thrown (error : E)
deriving DecidableEq, Repr

/-- One `HookResult` record (`{success, value?, error?, duration?}`). -/
structure HookResult (V E : Type) where
  success : Bool
  value : Option V := none
  error : Option (HookError E) := none
  duration : Option Nat := none
deriving DecidableEq, Repr

namespace HookManager

/-- The `register` operation, restricted to one named chain: push the new record, then
re-sort the array by descending priority (`hooks.push(...); hooks.sort(...)`),
with the stable JS sort modelled by `jsSort`. -/
def registerChain {V E : Type} (chain : List (RegisteredHook V E)) (h : RegisteredHook V E) :
    List (RegisteredHook V E) :=
  jsSort hookLe (chain ++ [h])

/-- The manager's `hooks` map: association list from hook name to chain,
in name-insertion order (keys are unique, as in a JS `Map`). -/
abbrev State (V E : Type) := List (Str × List (RegisteredHook V E))

/-- The chain stored under `name` (`this.hooks.get(name)`), empty when
absent. -/
def getChain {V E : Type} : State V E → Str → List (RegisteredHook V E)
  | [], _ => []
  | e :: rest, name => if e.1 = name then e.2 else getChain rest name

/-- Full `register(name, fn, options)`: create the chain if missing
(`hooks.set(name, [])`), then push-and-sort the chain under `name`. -/
def register {V E : Type} : State V E → Str → RegisteredHook V E → State V E
  | [], name, h => [(name, registerChain [] h)]
  | e :: rest, name, h =>
    if e.1 = name then (e.1, registerChain e.2 h) :: rest
    else e :: register rest name h

/-- A whole sequence of `register` calls. -/
def registerAll {V E : Type} (st : State V E) : List (Str × RegisteredHook V E) → State V E
  | [] => st
  | (name, h) :: rest => registerAll (register st name h) rest

/-- The result of racing one handler against its timeout timer
(`Promise.race` of the handler's promise and the `setTimeout` rejection):
a handler that settles within its deadline wins the race (success or its
own error); a handler that never settles, or settles after the timer
fires, yields the timeout error.  On the success path the code records
the elapsed duration; on either failure path it does not. -/
def runHandler {V E : Type} (name : Str) (h : RegisteredHook V E) : HookResult V E :=
  match h.behavior with
  | .ok v d =>
    if d ≤ h.timeout then { success := true, value := some v, duration := some d }
    else { success := false, error := some (.timedOut name h.timeout) }
  | .err e d =>
    if d ≤ h.timeout then { success := false, error := some (.thrown e) }
    else { success := false, error := some (.timedOut name h.timeout) }
  | .hang => { success := false, error := some (.timedOut name h.timeout) }

/-- The `for (const hook of hooks)` loop of `execute`: each handler is
invoked sequentially in chain order inside its own try/catch, and pushes
exactly one result. -/
def executeChain {V E : Type} (name : Str) : List (RegisteredHook V E) → List (HookResult V E)
  | [] => []
  | h :: rest => runHandler name h :: executeChain name rest

/-- Full `execute(name, ...args)`: empty result sequence when no chain is
registered under `name` (`if (!this.hooks.has(name)) return []`),
otherwise the chain is run in order; a present-but-empty chain also
yields the empty sequence, so the lookup default collapses both cases. -/
def execute {V E : Type} (st : State V E) (name : Str) : List (HookResult V E) :=
  executeChain name (getChain st name)

end HookManager

/-! ### Generic facts about the stable sort model -/

theorem jsInsert_perm {α : Type} (le : α → α → Bool) (x : α) :
    ∀ l : List α, List.Perm (jsInsert le x l) (x :: l)
  | [] => .refl _
  | y :: ys => by
    unfold jsInsert
    split
    · exact .refl _
    · exact ((jsInsert_perm le x ys).cons y).trans (List.Perm.swap x y ys)

theorem jsSort_perm {α : Type} (le : α → α → Bool) : ∀ l : List α, List.Perm (jsSort le l) l
  | [] => .refl _
  | x :: xs => (jsInsert_perm le x (jsSort le xs)).trans ((jsSort_perm le xs).cons x)

theorem mem_jsSort {α : Type} {le : α → α → Bool} {a : α} {l : List α} :
    a ∈ jsSort le l ↔ a ∈ l :=
  (jsSort_perm le l).mem_iff

theorem mem_jsInsert {α : Type} {le : α → α → Bool} {a x : α} {l : List α} :
    a ∈ jsInsert le x l ↔ a = x ∨ a ∈ l := by
  rw [(jsInsert_perm le x l).mem_iff, List.mem_cons]

/-- Sortedness of the stable sort, refined through ties: if an order `lt'`
holds between strictly-compared elements, and between tied elements in
their input order, then the output is pairwise `lt'`.  This is exactly
the stability guarantee: ties stay in input order. -/
theorem jsInsert_pairwise {α : Type} {le : α → α → Bool} {lt' : α → α → Prop}
    (total : ∀ a b, le a b = true ∨ le b a = true)
    (ltTrans : ∀ a b c, lt' a b → lt' b c → lt' a c)
    (strict : ∀ a b, le a b = true → ¬ le b a = true → lt' a b)
    {x : α} : ∀ {S : List α}, S.Pairwise lt' →
      (∀ y ∈ S, le x y = true → le y x = true → lt' x y) →
      (jsInsert le x S).Pairwise lt'
  | [], _, _ => by simp [jsInsert]
  | y :: S', hS, hx => by
    unfold jsInsert
    split
    · rename_i hxy
      have hxy' : lt' x y := by
        by_cases hyx : le y x = true
        · exact hx y (List.mem_cons_self y S') hxy hyx
        · exact strict x y hxy hyx
      refine hS.cons ?_
      intro z hz
      rcases List.mem_cons.mp hz with rfl | hz'
      · exact hxy'
      · exact ltTrans x y z hxy' (List.rel_of_pairwise_cons hS hz')
    · rename_i hxy
      have tail := jsInsert_pairwise total ltTrans strict hS.tail
        (fun z hz => hx z (List.mem_cons_of_mem y hz))
      refine tail.cons ?_
      intro z hz
      rcases mem_jsInsert.mp hz with rfl | hz'
      · rcases total z y with h | h
        · exact absurd h hxy
        · exact strict y z h hxy
      · exact List.rel_of_pairwise_cons hS hz'

theorem jsSort_pairwise {α : Type} {le : α → α → Bool} {lt' : α → α → Prop}
    (total : ∀ a b, le a b = true ∨ le b a = true)
    (ltTrans : ∀ a b c, lt' a b → lt' b c → lt' a c)
    (strict : ∀ a b, le a b = true → ¬ le b a = true → lt' a b) :
    ∀ {l : List α}, l.Pairwise (fun a b => le a b = true → le b a = true → lt' a b) →
      (jsSort le l).Pairwise lt'
  | [], _ => by simp [jsSort]
  | x :: xs, hl => by
    have tail := jsSort_pairwise total ltTrans strict hl.tail
    refine jsInsert_pairwise total ltTrans strict tail ?_
    intro y hy
    exact List.rel_of_pairwise_cons hl (mem_jsSort.mp hy)

/-- The leftmost minimum of a list: later elements replace the current
best only when strictly smaller. -/
def jsFirstMin {α : Type} (le : α → α → Bool) : List α → Option α
  | [] => none
  | x :: xs =>
    match jsFirstMin le xs with
    | none => some x
    | some q => if le x q then some x else some q

theorem jsSort_eq_nil_iff {α : Type} {le : α → α → Bool} {l : List α} :
    jsSort le l = [] ↔ l = [] := by
  constructor
  · intro h
    have := (jsSort_perm le l).length_eq
    rw [h] at this
    exact List.eq_nil_of_length_eq_zero this.symm
  · rintro rfl; rfl

/-- The head of the stable sort is the leftmost minimum. -/
theorem jsSort_head {α : Type} (le : α → α → Bool) :
    ∀ l : List α, (jsSort le l).head? = jsFirstMin le l
  | [] => rfl
  | x :: xs => by
    have ih := jsSort_head le xs
    show (jsInsert le x (jsSort le xs)).head? = _
    rcases hS : jsSort le xs with _ | ⟨y, S'⟩
    · rw [hS] at ih
      rw [jsSort_eq_nil_iff.mp hS] at ih ⊢
      simp [jsInsert, jsFirstMin, ← ih]
    · rw [hS] at ih
      rw [show jsFirstMin le (x :: xs) = match jsFirstMin le xs with
            | none => some x
            | some q => if le x q then some x else some q from rfl]
      rw [← ih]
      simp only [List.head?_cons]
      by_cases h : le x y = true <;> simp [jsInsert, h]

/-! ### Hook-chain ordering (C1) -/

namespace HookManager

/-- The chain invariant claimed by the spec: strictly descending
priority, or equal priority with strictly increasing registration
index (stable ties). -/
def lexLt {V E : Type} (a b : RegisteredHook V E) : Prop :=
  b.priority < a.priority ∨ (a.priority = b.priority ∧ a.idx < b.idx)

instance {V E : Type} (a b : RegisteredHook V E) : Decidable (lexLt a b) := by
  unfold lexLt; infer_instance

theorem hookLe_total {V E : Type} (a b : RegisteredHook V E) :
    hookLe a b = true ∨ hookLe b a = true := by
  simp only [hookLe, decide_eq_true_eq]
  omega

theorem lexLt_trans {V E : Type} (a b c : RegisteredHook V E) :
    lexLt a b → lexLt b c → lexLt a c := by
  unfold lexLt; omega

theorem hookLe_strict {V E : Type} (a b : RegisteredHook V E) :
    hookLe a b = true → ¬ hookLe b a = true → lexLt a b := by
  simp only [hookLe, decide_eq_true_eq, lexLt]
  omega

/-- One `register` call on a chain satisfying the invariant, with a fresh
registration index, preserves the invariant. -/
theorem registerChain_pairwise {V E : Type}
    {chain : List (RegisteredHook V E)} {h : RegisteredHook V E}
    (hc : chain.Pairwise lexLt) (hidx : ∀ x ∈ chain, x.idx < h.idx) :
    (registerChain chain h).Pairwise lexLt := by
  apply jsSort_pairwise hookLe_total lexLt_trans hookLe_strict
  rw [List.pairwise_append]
  refine ⟨hc.imp (fun hab _ _ => hab), by simp, ?_⟩
  intro a ha b hb
  rw [List.mem_singleton] at hb
  subst hb
  intro h1 h2
  simp only [hookLe, decide_eq_true_eq] at h1 h2
  exact Or.inr ⟨le_antisymm h2 h1, hidx a ha⟩

theorem mem_registerChain {V E : Type}
    {chain : List (RegisteredHook V E)} {h x : RegisteredHook V E} :
    x ∈ registerChain chain h ↔ x ∈ chain ∨ x = h := by
  rw [registerChain, mem_jsSort, List.mem_append, List.mem_singleton]

theorem getChain_register {V E : Type} (st : HookManager.State V E) (name m : Str)
    (h : RegisteredHook V E) :
    getChain (register st name h) m =
      if m = name then registerChain (getChain st name) h else getChain st m := by
  induction st with
  | nil =>
    by_cases hm : m = name
    · simp [register, getChain, hm]
    · simp [register, getChain, hm, Ne.symm hm]
  | cons e rest ih =>
    by_cases he : e.1 = name
    · by_cases hm : m = name
      · simp [register, getChain, he, hm, he.trans hm.symm]
      · have h1 : ¬ e.1 = m := fun h' => hm (h'.symm.trans he)
        simp [register, getChain, he, hm, h1, Ne.symm hm]
    · by_cases hm : e.1 = m
      · have h1 : ¬ m = name := fun h' => he (hm.trans h')
        simp [register, getChain, he, hm, h1]
      · simp [register, getChain, he, hm, ih]

theorem getChain_registerAll {V E : Type} :
    ∀ (regs : List (Str × RegisteredHook V E)) (st : HookManager.State V E) (name : Str),
    getChain (registerAll st regs) name =
      ((regs.filter (fun r => r.1 = name)).map (·.2)).foldl registerChain (getChain st name)
  | [], _, _ => rfl
  | (n, h) :: rest, st, name => by
    show getChain (registerAll (register st n h) rest) name = _
    rw [getChain_registerAll rest]
    rw [getChain_register]
    by_cases hn : n = name
    · simp [List.filter_cons, hn]
    · have : ¬ name = n := fun h' => hn h'.symm
      simp [List.filter_cons, hn, this]

theorem foldl_registerChain_pairwise {V E : Type} :
    ∀ (hs : List (RegisteredHook V E)) (chain : List (RegisteredHook V E)),
      chain.Pairwise lexLt →
      (∀ x ∈ chain, ∀ y ∈ hs, x.idx < y.idx) →
      hs.Pairwise (fun a b => a.idx < b.idx) →
      (hs.foldl registerChain chain).Pairwise lexLt
  | [], _, hc, _, _ => hc
  | h :: hs', chain, hc, hcross, hinc => by
    show (hs'.foldl registerChain (registerChain chain h)).Pairwise lexLt
    apply foldl_registerChain_pairwise hs'
    · exact registerChain_pairwise hc (fun x hx => hcross x hx h (List.mem_cons_self h hs'))
    · intro x hx y hy
      rcases mem_registerChain.mp hx with hx' | rfl
      · exact hcross x hx' y (List.mem_cons_of_mem h hy)
      · exact List.rel_of_pairwise_cons hinc hy
    · exact hinc.tail
  termination_by hs => hs.length

theorem foldl_registerChain_perm {V E : Type} :
    ∀ (hs : List (RegisteredHook V E)) (chain : List (RegisteredHook V E)),
      List.Perm (hs.foldl registerChain chain) (chain ++ hs)
  | [], chain => by simp
  | h :: hs', chain => by
    show List.Perm (hs'.foldl registerChain (registerChain chain h)) _
    have ih := foldl_registerChain_perm hs' (registerChain chain h)
    have hstep : List.Perm (registerChain chain h ++ hs') (chain ++ h :: hs') := by
      have := (jsSort_perm hookLe (chain ++ [h])).append_right hs'
      simpa using this
    exact ih.trans hstep
  termination_by hs => hs.length

theorem executeChain_eq_map {V E : Type} (name : Str) :
    ∀ chain : List (RegisteredHook V E),
      executeChain name chain = chain.map (runHandler name)
  | [] => rfl
  | h :: rest => by
    show runHandler name h :: executeChain name rest = _
    rw [executeChain_eq_map name rest, List.map_cons]

end HookManager

/-- Registration sequence used by witnesses: three handlers registered
under the same hook name with priorities 5, 20, 10 (in that order). -/
def demoRegs : List (Str × RegisteredHook Nat Nat) :=
  [("t".toList, { behavior := .ok 100 0, priority := 5, timeout := 30000, idx := 0 }),
   ("t".toList, { behavior := .ok 200 0, priority := 20, timeout := 30000, idx := 1 }),
   ("t".toList, { behavior := .ok 300 0, priority := 10, timeout := 30000, idx := 2 })]

/-- C1: after any sequence of `register` calls (with fresh, increasing
registration indices), the chain stored under every hook name is sorted
in strictly descending priority with ties in registration order
(`lexLt`-pairwise), holds exactly the handlers registered under that
name, and `execute` invokes the handlers exactly in chain order,
producing one result per handler in that order. -/
theorem hookManager_chain_sorted_stable {V E : Type}
    (regs : List (Str × RegisteredHook V E)) (name : Str)
    (hinc : regs.Pairwise (fun a b => a.2.idx < b.2.idx)) :
    (HookManager.getChain (HookManager.registerAll [] regs) name).Pairwise HookManager.lexLt ∧
    List.Perm (HookManager.getChain (HookManager.registerAll [] regs) name)
      ((regs.filter (fun r => r.1 = name)).map (·.2)) ∧
    HookManager.execute (HookManager.registerAll [] regs) name =
      (HookManager.getChain (HookManager.registerAll [] regs) name).map
        (HookManager.runHandler name) := by
  have hchain := HookManager.getChain_registerAll regs [] name
  have hfiltered : ((regs.filter (fun r => r.1 = name)).map (·.2)).Pairwise
      (fun a b => a.idx < b.idx) := by
    rw [List.pairwise_map]
    exact List.Pairwise.sublist (List.filter_sublist regs) hinc
  refine ⟨?_, ?_, ?_⟩
  · rw [hchain]
    exact HookManager.foldl_registerChain_pairwise
      ((regs.filter (fun r => r.1 = name)).map (·.2)) [] List.Pairwise.nil
      (fun x hx => absurd hx (List.not_mem_nil x)) hfiltered
  · rw [hchain]
    have := HookManager.foldl_registerChain_perm
      ((regs.filter (fun r => r.1 = name)).map (·.2)) []
    simpa using this
  · exact HookManager.executeChain_eq_map name _

/-- Witness for C1: handlers registered with priorities `[5, 20, 10]`
produce a chain ordered `20, 10, 5` (registration indices `1, 2, 0`),
the chain satisfies the sortedness/stability invariant, and `execute`
runs the handlers in exactly that order. -/
theorem hookManager_chain_sorted_stable_witness :
    (HookManager.getChain (HookManager.registerAll [] demoRegs) "t".toList).Pairwise
      HookManager.lexLt ∧
    (HookManager.getChain (HookManager.registerAll [] demoRegs) "t".toList).map
      (fun h => h.priority) = [20, 10, 5] ∧
    (HookManager.getChain (HookManager.registerAll [] demoRegs) "t".toList).map
      (fun h => h.idx) = [1, 2, 0] ∧
    (HookManager.execute (HookManager.registerAll [] demoRegs) "t".toList).map
      (fun r => r.value) = [some 200, some 300, some 100] :=
  ⟨(hookManager_chain_sorted_stable demoRegs "t".toList (by decide)).1,
    by decide, by decide, by decide⟩

/-- C2: `execute` produces exactly one `HookResult` per handler, in chain
order (`i`-th result comes from the `i`-th handler); a handler that
throws/rejects within its deadline yields `success = false` carrying its
own error; a handler that never settles, or settles after its deadline,
yields `success = false` carrying the timeout-kind error; and a failing
handler placed anywhere in the chain leaves every other handler's result
unchanged (isolation). -/
theorem executeChain_one_result_per_handler {V E : Type} (name : Str)
    (chain l₁ l₂ : List (RegisteredHook V E)) (h : RegisteredHook V E) :
    (HookManager.executeChain name chain).length = chain.length ∧
    (∀ i : Nat, (HookManager.executeChain name chain)[i]? =
      (chain[i]?).map (HookManager.runHandler name)) ∧
    HookManager.executeChain name (l₁ ++ h :: l₂) =
      HookManager.executeChain name l₁ ++
        HookManager.runHandler name h :: HookManager.executeChain name l₂ ∧
    (∀ e d, h.behavior = .err e d → d ≤ h.timeout →
      HookManager.runHandler name h = { success := false, error := some (.thrown e) }) ∧
    (h.behavior = .hang →
      HookManager.runHandler name h =
        { success := false, error := some (.timedOut name h.timeout) }) ∧
    (∀ v d, h.behavior = .ok v d → h.timeout < d →
      HookManager.runHandler name h =
        { success := false, error := some (.timedOut name h.timeout) }) ∧
    (∀ v d, h.behavior = .ok v d → d ≤ h.timeout →
      HookManager.runHandler name h =
        { success := true, value := some v, duration := some d }) := by
  refine ⟨?_, ?_, ?_, ?_, ?_, ?_, ?_⟩
  · rw [HookManager.executeChain_eq_map, List.length_map]
  · intro i
    rw [HookManager.executeChain_eq_map, List.getElem?_map]
  · rw [HookManager.executeChain_eq_map, HookManager.executeChain_eq_map,
      HookManager.executeChain_eq_map, List.map_append, List.map_cons]
  · intro e d hb hd
    simp [HookManager.runHandler, hb, hd]
  · intro hb
    simp [HookManager.runHandler, hb]
  · intro v d hb hd
    simp [HookManager.runHandler, hb, Nat.not_le.mpr hd]
  · intro v d hb hd
    simp [HookManager.runHandler, hb, hd]

/-- A handler that succeeds after 5 ms. -/
def demoOkHook : RegisteredHook Nat Nat :=
  { behavior := .ok 100 5, priority := 10, timeout := 30000, idx := 0 }

/-- A handler that throws/rejects immediately. -/
def demoErrHook : RegisteredHook Nat Nat :=
  { behavior := .err 7 0, priority := 10, timeout := 30000, idx := 1 }

/-- Another succeeding handler. -/
def demoOk2Hook : RegisteredHook Nat Nat :=
  { behavior := .ok 300 5, priority := 10, timeout := 30000, idx := 2 }

/-- A handler with a 1 ms deadline that never settles. -/
def demoHangHook : RegisteredHook Nat Nat :=
  { behavior := .hang, priority := 10, timeout := 1, idx := 3 }

/-- Witness for C2: in a chain of three handlers whose second throws, all
three report (second failed with its own error, first and third succeeded
with their own values); a never-settling handler with a 1 ms deadline
reports the timeout-kind error while its siblings still report. -/
theorem executeChain_one_result_per_handler_witness :
    HookManager.runHandler "t".toList demoErrHook =
      { success := false, error := some (.thrown 7) } ∧
    HookManager.runHandler "t".toList demoHangHook =
      { success := false, error := some (.timedOut "t".toList 1) } ∧
    (HookManager.executeChain "t".toList [demoOkHook, demoErrHook, demoOk2Hook]).map
      (fun r => (r.success, r.value)) =
      [(true, some 100), (false, none), (true, some 300)] ∧
    (HookManager.executeChain "t".toList [demoOkHook, demoHangHook, demoOk2Hook]).map
      (fun r => (r.success, r.value)) =
      [(true, some 100), (false, none), (true, some 300)] :=
  ⟨(executeChain_one_result_per_handler "t".toList [] [] [] demoErrHook).2.2.2.1 7 0
      rfl (by decide),
    (executeChain_one_result_per_handler "t".toList [] [] [] demoHangHook).2.2.2.2.1 rfl,
    by decide, by decide⟩

/-! ### Bounded command history (C6) -/

theorem saveCommandHistory_eq {α : Type} (h0 : List α) (c : α) :
    saveCommandHistory h0 c = (h0 ++ [c]).drop ((h0 ++ [c]).length - 100) := by
  show (if 100 < (h0 ++ [c]).length then
      (h0 ++ [c]).drop ((h0 ++ [c]).length - 100) else h0 ++ [c]) = _
  split
  · rfl
  · rename_i hle
    rw [Nat.sub_eq_zero_of_le (Nat.le_of_not_lt hle), List.drop_zero]

/-- Trimming to the last 100 entries commutes with later appends: keeping
only the last 100 of `x` before appending `y` yields the same final
100-suffix as appending first. -/
theorem drop100_append {α : Type} (x y : List α) :
    (x.drop (x.length - 100) ++ y).drop ((x.drop (x.length - 100) ++ y).length - 100) =
      (x ++ y).drop ((x ++ y).length - 100) := by
  rw [List.drop_append_eq_append_drop, List.drop_append_eq_append_drop, List.drop_drop]
  simp only [List.length_append, List.length_drop]
  congr 2 <;> omega

theorem foldl_saveCommandHistory {α : Type} :
    ∀ (cs : List α) (h0 : List α), h0.length ≤ 100 →
      List.foldl saveCommandHistory h0 cs = (h0 ++ cs).drop ((h0 ++ cs).length - 100)
  | [], h0, hlen => by
    simp [Nat.sub_eq_zero_of_le hlen]
  | c :: cs', h0, hlen => by
    show List.foldl saveCommandHistory (saveCommandHistory h0 c) cs' = _
    have hlen1 : (saveCommandHistory h0 c).length ≤ 100 := by
      rw [saveCommandHistory_eq, List.length_drop]
      omega
    rw [foldl_saveCommandHistory cs' _ hlen1, saveCommandHistory_eq, drop100_append,
      List.append_assoc, List.singleton_append]

/-- C6: starting from any log of at most 100 entries, a sequence of
`saveCommandHistory` appends always leaves the most recent at most 100
entries in oldest-first order (the log is exactly the 100-suffix of the
full append sequence); in particular 150 appends to an empty log leave
exactly the most recent 100. -/
theorem saveCommandHistory_bounded {α : Type} (h0 cs : List α) (hlen : h0.length ≤ 100) :
    List.foldl saveCommandHistory h0 cs = (h0 ++ cs).drop ((h0 ++ cs).length - 100) ∧
    (List.foldl saveCommandHistory h0 cs).length ≤ 100 ∧
    (h0 = [] → cs.length = 150 → List.foldl saveCommandHistory h0 cs = cs.drop 50) := by
  refine ⟨foldl_saveCommandHistory cs h0 hlen, ?_, ?_⟩
  · rw [foldl_saveCommandHistory cs h0 hlen, List.length_drop]
    omega
  · rintro rfl h150
    rw [foldl_saveCommandHistory cs [] (by simp), List.nil_append, h150]

/-- Witness for C6: appending the 150 entries `0, …, 149` to an empty log
leaves exactly the most recent 100 entries `50, …, 149`. -/
theorem saveCommandHistory_bounded_witness :
    List.foldl saveCommandHistory ([] : List Nat) (List.range 150) = (List.range 150).drop 50 :=
  (saveCommandHistory_bounded [] (List.range 150) (by simp)).2.2 rfl (by simp)

/-! ### Closest candidate (C3) -/

theorem jsFirstMin_distLe :
    ∀ l : List (Nat × Str),
      (jsFirstMin distLe l = none → l = []) ∧
      (∀ q, jsFirstMin distLe l = some q →
        ∃ pre suf, l = pre ++ q :: suf ∧ (∀ c ∈ l, q.1 ≤ c.1) ∧ (∀ c ∈ pre, q.1 < c.1))
  | [] => ⟨fun _ => rfl, fun q h => by simp [jsFirstMin] at h⟩
  | p :: ps => by
    obtain ⟨ihn, ihs⟩ := jsFirstMin_distLe ps
    constructor
    · intro h
      simp only [jsFirstMin] at h
      cases hps : jsFirstMin distLe ps with
      | none => rw [hps] at h; simp at h
      | some q => rw [hps] at h; by_cases hle : distLe p q <;> simp [hle] at h
    · intro q hq
      simp only [jsFirstMin] at hq
      cases hps : jsFirstMin distLe ps with
      | none =>
        rw [hps] at hq
        simp only [Option.some.injEq] at hq
        subst hq
        rw [ihn hps]
        exact ⟨[], [], rfl, by simp, by simp⟩
      | some q' =>
        rw [hps] at hq
        obtain ⟨pre', suf', hdecomp, hmin', hstrict'⟩ := ihs q' hps
        by_cases hle : distLe p q' = true
        · simp only [hle, if_true, Option.some.injEq] at hq
          subst hq
          refine ⟨[], ps, rfl, ?_, by simp⟩
          intro c hc
          rcases List.mem_cons.mp hc with rfl | hc'
          · exact Nat.le_refl _
          · simp only [distLe, decide_eq_true_eq] at hle
            exact Nat.le_trans hle (hmin' c hc')
        · simp only [hle, Bool.false_eq_true, if_false, Option.some.injEq] at hq
          subst hq
          simp only [distLe, decide_eq_true_eq, Nat.not_le] at hle
          refine ⟨p :: pre', suf', by rw [hdecomp]; rfl, ?_, ?_⟩
          · intro c hc
            rcases List.mem_cons.mp hc with rfl | hc'
            · exact Nat.le_of_lt hle
            · exact hmin' c hc'
          · intro c hc
            rcases List.mem_cons.mp hc with rfl | hc'
            · exact hle
            · exact hstrict' c hc'

/-- C3: `closest` returns the empty result on an empty candidate list,
and otherwise a candidate of minimum edit distance to the target, the
ties resolved by candidate list order (every earlier candidate has
strictly greater distance). -/
theorem closest_min_distance (target : Str) (possibilities : List Str) :
    (possibilities = [] → closest target possibilities = []) ∧
    (possibilities ≠ [] →
      ∃ pre suf, possibilities = pre ++ closest target possibilities :: suf ∧
        (∀ c ∈ possibilities,
          levDist target (closest target possibilities) ≤ levDist target c) ∧
        (∀ c ∈ pre, levDist target (closest target possibilities) < levDist target c)) := by
  constructor
  · rintro rfl; rfl
  · intro hne
    have hhead := jsSort_head distLe (possibilities.map fun id => (levDist target id, id))
    cases hfm : jsFirstMin distLe (possibilities.map fun id => (levDist target id, id)) with
    | none =>
      have hnil := (jsFirstMin_distLe _).1 hfm
      rw [List.map_eq_nil_iff] at hnil
      exact absurd hnil hne
    | some q =>
      obtain ⟨pre, suf, hdecomp, hmin, hstrict⟩ := (jsFirstMin_distLe _).2 q hfm
      have hclosest : closest target possibilities = q.2 := by
        unfold closest
        rw [hhead, hfm]
      obtain ⟨pre₀, rest₀, hsplit, hpre₀, hrest₀⟩ := List.map_eq_append_iff.mp hdecomp
      obtain ⟨c₀, suf₀, hrsplit, hfc₀, hsuf₀⟩ := List.map_eq_cons_iff.mp hrest₀
      have hq2 : q.2 = c₀ := by rw [← hfc₀]
      have hq1 : q.1 = levDist target c₀ := by rw [← hfc₀]
      refine ⟨pre₀, suf₀, ?_, ?_, ?_⟩
      · rw [hclosest, hq2, hsplit, hrsplit]
      · intro c hc
        have : (levDist target c, c) ∈ possibilities.map fun id => (levDist target id, id) :=
          List.mem_map_of_mem _ hc
        have := hmin _ this
        rw [hclosest, hq2, ← hq1]
        exact this
      · intro c hc
        have : (levDist target c, c) ∈ pre := by
          rw [← hpre₀]
          exact List.mem_map_of_mem _ hc
        have := hstrict _ this
        rw [hclosest, hq2, ← hq1]
        exact this

/-- Witness for C3: `closest "confi" ["config", "confit", "help"]`
returns `"config"`, the first candidate at the minimum distance 1. -/
theorem closest_min_distance_witness :
    closest "confi".toList ["config".toList, "confit".toList, "help".toList] = "config".toList ∧
    (∃ pre suf,
      ["config".toList, "confit".toList, "help".toList] =
        pre ++ closest "confi".toList ["config".toList, "confit".toList, "help".toList] :: suf ∧
      (∀ c ∈ ["config".toList, "confit".toList, "help".toList],
        levDist "confi".toList
          (closest "confi".toList ["config".toList, "confit".toList, "help".toList]) ≤
          levDist "confi".toList c) ∧
      (∀ c ∈ pre,
        levDist "confi".toList
          (closest "confi".toList ["config".toList, "confit".toList, "help".toList]) <
          levDist "confi".toList c)) :=
  ⟨by decide,
    (closest_min_distance "confi".toList
      ["config".toList, "confit".toList, "help".toList]).2 (by decide)⟩

/-! ### Ordered suggestions (C8) -/

theorem pairwise_of_forall {α : Type} {R : α → α → Prop} (h : ∀ a b, R a b) :
    ∀ l : List α, l.Pairwise R
  | [] => .nil
  | x :: xs => .cons (fun y _ => h x y) (pairwise_of_forall h xs)

theorem distLe_total (a b : Nat × Str) : distLe a b = true ∨ distLe b a = true := by
  simp only [distLe, decide_eq_true_eq]
  omega

/-- C8: `getOrderedSuggestions` returns the candidates ranked ascending
by edit distance to the target, truncated to the first `limit` entries:
there is a single ranking (a permutation of the candidate list whose
distances are ascending) of which every `limit` selects the prefix.  The
code's default for `limit` is 3. -/
theorem getOrderedSuggestions_ranked (target : Str) (possibilities : List Str) :
    ∃ ranked : List Str,
      List.Perm ranked possibilities ∧
      ranked.Pairwise (fun a b => levDist target a ≤ levDist target b) ∧
      ∀ limit, getOrderedSuggestions target possibilities limit = ranked.take limit := by
  refine ⟨(jsSort distLe (possibilities.map fun id => (levDist target id, id))).map (·.2),
    ?_, ?_, ?_⟩
  · have hp := (jsSort_perm distLe (possibilities.map fun id => (levDist target id, id))).map
      (fun p : Nat × Str => p.2)
    have h2 : (possibilities.map fun id => (levDist target id, id)).map
        (fun p : Nat × Str => p.2) = possibilities := by
      rw [List.map_map]
      exact List.map_id' possibilities
    rw [h2] at hp
    exact hp
  · have hsorted : (jsSort distLe (possibilities.map fun id =>
        (levDist target id, id))).Pairwise (fun p q : Nat × Str => p.1 ≤ q.1) :=
      @jsSort_pairwise (Nat × Str) distLe (fun p q => p.1 ≤ q.1) distLe_total
        (fun a b c hab hbc => Nat.le_trans hab hbc)
        (fun a b hab _ => by simpa [distLe] using hab) _
        (pairwise_of_forall (fun a b => fun h1 _ => by simpa [distLe] using h1) _)
    rw [List.pairwise_map]
    refine List.Pairwise.imp_of_mem ?_ hsorted
    intro p q hp hq hle
    rw [mem_jsSort] at hp hq
    obtain ⟨ip, -, rfl⟩ := List.mem_map.mp hp
    obtain ⟨iq, -, rfl⟩ := List.mem_map.mp hq
    exact hle
  · intro limit
    unfold getOrderedSuggestions
    rw [List.map_take]

/-! ### Related commands (C9, C10) -/

/-- C9: `findRelatedCommands` returns the candidates other than the
target itself that contain at least one `':'`-segment of the target as a
substring, truncated to the first `limit` entries (the code's default for
`limit` is 2). -/
theorem findRelatedCommands_spec (target : Str) (commandIDs : List Str) (limit : Nat) :
    findRelatedCommands target commandIDs limit =
      (commandIDs.filter fun cmd =>
        ((splitChar ':' target).any fun part => strContains cmd part) && cmd ≠ target).take
        limit ∧
    ∀ cmd ∈ findRelatedCommands target commandIDs limit,
      cmd ≠ target ∧ ∃ part ∈ splitChar ':' target, strContains cmd part = true := by
  constructor
  · show ((commandIDs.filter fun cmd =>
        (splitChar ':' target).any fun part => strContains cmd part).filter
          fun cmd => decide (cmd ≠ target)).take limit = _
    rw [List.filter_filter]
    have hcomm : (fun cmd => decide (cmd ≠ target) &&
        ((splitChar ':' target).any fun part => strContains cmd part)) =
        (fun cmd => ((splitChar ':' target).any fun part => strContains cmd part) &&
          decide (cmd ≠ target)) :=
      funext fun cmd => Bool.and_comm _ _
    rw [hcomm]
  · intro cmd hmem
    unfold findRelatedCommands at hmem
    have h1 := List.mem_of_mem_take hmem
    rw [List.mem_filter] at h1
    obtain ⟨h2, h3⟩ := h1
    rw [List.mem_filter] at h2
    obtain ⟨-, h4⟩ := h2
    refine ⟨by simpa using h3, ?_⟩
    rw [List.any_eq_true] at h4
    exact h4

/-- Witness for C9: for target `"config:set"`, the only candidate other
than the target containing the segment `"config"` or `"set"` is
`"config:get"`. -/
theorem findRelatedCommands_spec_witness :
    findRelatedCommands "config:set".toList
      ["config:get".toList, "help".toList, "config:set".toList] 2 =
      ["config:get".toList] ∧
    "config:get".toList ≠ "config:set".toList ∧
    ∃ part ∈ splitChar ':' "config:set".toList,
      strContains "config:get".toList part = true :=
  ⟨by decide,
    (findRelatedCommands_spec "config:set".toList
      ["config:get".toList, "help".toList, "config:set".toList] 2).2
      "config:get".toList (by decide)⟩

theorem strContains_nil (s : Str) : strContains s [] = true := by
  cases s <;> simp [strContains, strStartsWith, List.isEmpty]

theorem splitChar_ne_nil (sep : Char) : ∀ t : Str, splitChar sep t ≠ []
  | [] => by simp [splitChar]
  | c :: cs => by
    unfold splitChar
    split
    · simp
    · split <;> simp

/-- Splitting a string that ends in the separator produces a trailing
empty segment. -/
theorem splitChar_append_sep :
    ∀ rest : Str, ∃ s ss, splitChar ':' (rest ++ [':']) = (s :: ss) ++ [[]]
  | [] => ⟨[], [], rfl⟩
  | c :: rest' => by
    obtain ⟨s, ss, ih⟩ := splitChar_append_sep rest'
    by_cases hc : c = ':'
    · exact ⟨[], s :: ss, by simp [splitChar, hc, ih]⟩
    · refine ⟨c :: s, ss, ?_⟩
      show splitChar ':' (c :: (rest' ++ [':'])) = _
      unfold splitChar
      rw [if_neg hc, ih]
      rfl

/-- Splitting a string with two adjacent separators produces an empty
segment after the head segment. -/
theorem splitChar_adjacent :
    ∀ a b : Str, ∃ s ss, splitChar ':' (a ++ ':' :: ':' :: b) = s :: ss ∧ [] ∈ ss
  | [], b => ⟨[], [] :: splitChar ':' b, by simp [splitChar], by simp⟩
  | c :: a', b => by
    obtain ⟨s, ss, ih, hmem⟩ := splitChar_adjacent a' b
    by_cases hc : c = ':'
    · exact ⟨[], s :: ss, by simp [splitChar, hc, ih], List.mem_cons_of_mem s hmem⟩
    · refine ⟨c :: s, ss, ?_, hmem⟩
      show splitChar ':' (c :: (a' ++ ':' :: ':' :: b)) = _
      unfold splitChar
      rw [if_neg hc, ih]

/-- C10: when the target begins or ends with `':'` or contains two
adjacent `':'`, splitting it yields an empty segment, every candidate
contains the empty segment as a substring and so passes the relatedness
filter, and the result is simply the first `limit` candidates differing
from the target. -/
theorem findRelatedCommands_empty_segment (target : Str) (commandIDs : List Str) (limit : Nat)
    (h : (∃ rest, target = ':' :: rest) ∨ (∃ rest, target = rest ++ [':']) ∨
      (∃ a b, target = a ++ ':' :: ':' :: b)) :
    [] ∈ splitChar ':' target ∧
    (∀ cmd ∈ commandIDs,
      ((splitChar ':' target).any fun part => strContains cmd part) = true) ∧
    findRelatedCommands target commandIDs limit =
      (commandIDs.filter fun cmd => cmd ≠ target).take limit := by
  have hempty : [] ∈ splitChar ':' target := by
    rcases h with ⟨rest, rfl⟩ | ⟨rest, rfl⟩ | ⟨a, b, rfl⟩
    · simp [splitChar]
    · obtain ⟨s, ss, heq⟩ := splitChar_append_sep rest
      rw [heq]
      simp
    · obtain ⟨s, ss, heq, hmem⟩ := splitChar_adjacent a b
      rw [heq]
      exact List.mem_cons_of_mem s hmem
  have hany : ∀ cmd : Str,
      ((splitChar ':' target).any fun part => strContains cmd part) = true := by
    intro cmd
    rw [List.any_eq_true]
    exact ⟨[], hempty, strContains_nil cmd⟩
  refine ⟨hempty, fun cmd _ => hany cmd, ?_⟩
  show ((commandIDs.filter fun cmd =>
      (splitChar ':' target).any fun part => strContains cmd part).filter
        fun cmd => decide (cmd ≠ target)).take limit = _
  rw [List.filter_eq_self.mpr (fun cmd _ => hany cmd)]

/-- Witness for C10: the target `":set"` begins with `':'`; every
candidate passes the relatedness filter and the result is the first 2
candidates other than the target. -/
theorem findRelatedCommands_empty_segment_witness :
    [] ∈ splitChar ':' ":set".toList ∧
    findRelatedCommands ":set".toList
      ["config".toList, ":set".toList, "help".toList, "other".toList] 2 =
      ["config".toList, "help".toList] :=
  ⟨(findRelatedCommands_empty_segment ":set".toList
      ["config".toList, ":set".toList, "help".toList, "other".toList] 2
      (Or.inl ⟨"set".toList, by decide⟩)).1,
    by decide⟩

/-! ### Command-not-found workflow (C5, C7) -/

/-- One `opts.config.commands` entry: id, aliases, hidden flag. -/
structure CmdDecl where
  id : Str
  aliases : List Str
  hidden : Bool
deriving DecidableEq

/-- The parts of the oclif `config` collaborator the hook reads. -/
structure CNFConfig where
  commandIDs : List Str
  commands : List CmdDecl
deriving DecidableEq

/-- The `{id, argv}` the outer CLI passes to the hook. -/
structure CNFOpts where
  id : Str
  argv : List Str
deriving DecidableEq

/-- Result of an interactive `confirm` prompt: resolved `true`, resolved
to anything else, or threw (e.g. cancelled) — the code catches the throw
and treats it exactly like a non-`true` response. -/
inductive PromptResult where
  | confirmed
  | declined
  | failed
deriving DecidableEq

/-- Terminal states of the workflow. -/
inductive CNFOutcome where
  | helped
  | empty
  | ranHelpFlag
  | resolved (cmd : Str) (argv : List Str)
  | fatal (exitCode : Nat)
deriving DecidableEq

/-- A value stored into the shared `HookContext`. -/
inductive CtxVal where
  | str (s : Str)
  | strs (l : List Str)
  | cfgVal
  | errVal (msg : Str)
deriving DecidableEq

/-- Observable side effects of the workflow, in order: context writes and
hook firings (with the `HookResult`s the firing produced). -/
inductive CNFEvent (V E : Type) where
  | ctxSet (key : Str) (v : CtxVal)
  | hookFired (name : Str) (results : List (HookResult V E))
deriving DecidableEq

/-- Everything one run of the hook produces. -/
structure CNFRun (V E : Type) where
  outcome : CNFOutcome
  events : List (CNFEvent V E)
  suggestion : Str := []
  alternatives : List Str := []
  related : List Str := []
deriving DecidableEq

/-- Visible command identifiers: `config.commandIDs` plus all aliases,
minus ids of hidden commands. -/
def visibleIDs (cfg : CNFConfig) : List Str :=
  (cfg.commandIDs ++ cfg.commands.flatMap (·.aliases)).filter
    (fun c => c ∉ (cfg.commands.filter (·.hidden)).map (·.id))

/-- The primary suggestion: when the id contains `help` (the regex
`/:?help:?/` matches exactly the ids containing `"help"`), rebuild it as
`help:<other segments>`; otherwise the closest visible command. -/
def primarySuggestion (cfg : CNFConfig) (opts : CNFOpts) : Str :=
  if strContains opts.id "help".toList then
    joinChar ':' ("help".toList :: (splitChar ':' opts.id).filter (fun s => s ≠ "help".toList))
  else closest opts.id (visibleIDs cfg)

/-- Alternative suggestions: top 3 ordered suggestions minus the primary. -/
def altSuggestions (cfg : CNFConfig) (opts : CNFOpts) : List Str :=
  (getOrderedSuggestions opts.id (visibleIDs cfg) 3).filter
    (fun s => s ≠ primarySuggestion cfg opts)

/-- The events every run starts with: the three context writes and the
`command:before` firing. -/
def startEvents {V E : Type} (hookSt : HookManager.State V E) (opts : CNFOpts) :
    List (CNFEvent V E) :=
  [.ctxSet "command".toList (.str opts.id),
   .ctxSet "argv".toList (.strs opts.argv),
   .ctxSet "config".toList .cfgVal,
   .hookFired "command:before".toList (HookManager.execute hookSt "command:before".toList)]

/-- The failure tail: store the `Command not found` error in the context,
fire the `error` hook, exit 127. -/
def failRun {V E : Type} (hookSt : HookManager.State V E) (cfg : CNFConfig) (opts : CNFOpts) :
    CNFRun V E :=
  { outcome := .fatal 127,
    events := startEvents hookSt opts ++
      [.ctxSet "error".toList (.errVal ("Command not found: ".toList ++ opts.id)),
       .hookFired "error".toList (HookManager.execute hookSt "error".toList)],
    suggestion := primarySuggestion cfg opts,
    alternatives := altSuggestions cfg opts,
    related := findRelatedCommands opts.id (visibleIDs cfg) 2 }

/-- The confirmed-primary branch (lines 317–340 of the hook): reconstruct
the argument vector — the original `argv` when nonempty, otherwise the
id's `':'`-segments sliced past the portion consumed by the suggestion —
special-casing a help-shaped suggestion (command forced to `help`, the
suggestion's remaining segments become the help target); `id = 'help'`
short-circuits to `runCommand('--help')`. -/
def confirmedRun {V E : Type} (hookSt : HookManager.State V E) (cfg : CNFConfig)
    (opts : CNFOpts) : CNFRun V E :=
  if opts.id = "help".toList then
    { outcome := .ranHelpFlag, events := startEvents hookSt opts,
      suggestion := primarySuggestion cfg opts,
      alternatives := altSuggestions cfg opts,
      related := findRelatedCommands opts.id (visibleIDs cfg) 2 }
  else
    let sugg := primarySuggestion cfg opts
    let argv0 := if opts.argv ≠ [] then opts.argv
      else (splitChar ':' opts.id).drop (splitChar ':' sugg).length
    let cmd := if strStartsWith sugg "help:".toList then "help".toList else sugg
    let argv1 := if strStartsWith sugg "help:".toList then
        (splitChar ':' sugg).drop 1
      else argv0
    { outcome := .resolved cmd argv1,
      events := startEvents hookSt opts ++
        [.ctxSet "suggestedCommand".toList (.str cmd),
         .ctxSet "suggestedArgv".toList (.strs argv1),
         .hookFired "command:after".toList
           (HookManager.execute hookSt "command:after".toList)],
      suggestion := sugg,
      alternatives := altSuggestions cfg opts,
      related := findRelatedCommands opts.id (visibleIDs cfg) 2 }

/-- The declined-or-errored-primary branch (lines 342–367): offer the
first alternative if one exists; confirming it resolves with the original
argv unmodified, anything else falls through to the failure tail. -/
def declinedRun {V E : Type} (hookSt : HookManager.State V E) (cfg : CNFConfig)
    (opts : CNFOpts) (altResp : PromptResult) : CNFRun V E :=
  match altSuggestions cfg opts, altResp with
  | alt0 :: _, .confirmed =>
    { outcome := .resolved alt0 opts.argv,
      events := startEvents hookSt opts ++
        [.ctxSet "suggestedCommand".toList (.str alt0),
         .ctxSet "suggestedArgv".toList (.strs opts.argv),
         .hookFired "command:after".toList
           (HookManager.execute hookSt "command:after".toList)],
      suggestion := primarySuggestion cfg opts,
      alternatives := altSuggestions cfg opts,
      related := findRelatedCommands opts.id (visibleIDs cfg) 2 }
  | _ :: _, _ => failRun hookSt cfg opts
  | [], _ => failRun hookSt cfg opts

/-- The `commandNotFound` hook (the workflow of `src/unnamed/part_000`
lines 244–368), as a pure function of the prompt responses.  Presentation
effects (warn/log lines, colors, the `binHelp` message text) are not
modelled; everything that decides control flow is. -/
def commandNotFound {V E : Type} (hookSt : HookManager.State V E) (cfg : CNFConfig)
    (opts : CNFOpts) (primaryResp altResp : PromptResult) : CNFRun V E :=
  if opts.id = "--help".toList then
    { outcome := .helped, events := startEvents hookSt opts }
  else if visibleIDs cfg = [] then
    { outcome := .empty, events := startEvents hookSt opts }
  else
    match primaryResp with
    | .confirmed => confirmedRun hookSt cfg opts
    | _ => declinedRun hookSt cfg opts altResp

theorem commandNotFound_eq_confirmedRun {V E : Type} (hookSt : HookManager.State V E)
    (cfg : CNFConfig) (opts : CNFOpts) (a : PromptResult)
    (hid : opts.id ≠ "--help".toList) (hcmds : visibleIDs cfg ≠ []) :
    commandNotFound hookSt cfg opts .confirmed a = confirmedRun hookSt cfg opts := by
  unfold commandNotFound
  rw [if_neg hid, if_neg hcmds]

theorem commandNotFound_eq_declinedRun {V E : Type} (hookSt : HookManager.State V E)
    (cfg : CNFConfig) (opts : CNFOpts) (p a : PromptResult)
    (hid : opts.id ≠ "--help".toList) (hcmds : visibleIDs cfg ≠ [])
    (hp : p ≠ .confirmed) :
    commandNotFound hookSt cfg opts p a = declinedRun hookSt cfg opts a := by
  unfold commandNotFound
  rw [if_neg hid, if_neg hcmds]
  cases p with
  | confirmed => exact absurd rfl hp
  | declined => rfl
  | failed => rfl

theorem confirmedRun_outcome_indep {V E : Type} (st st' : HookManager.State V E)
    (cfg : CNFConfig) (opts : CNFOpts) :
    (confirmedRun st cfg opts).outcome = (confirmedRun st' cfg opts).outcome := by
  unfold confirmedRun
  by_cases hh : opts.id = "help".toList
  · rw [if_pos hh, if_pos hh]
  · rw [if_neg hh, if_neg hh]

theorem declinedRun_outcome_indep {V E : Type} (st st' : HookManager.State V E)
    (cfg : CNFConfig) (opts : CNFOpts) (a : PromptResult) :
    (declinedRun st cfg opts a).outcome = (declinedRun st' cfg opts a).outcome := by
  unfold declinedRun
  cases altSuggestions cfg opts with
  | nil => cases a <;> rfl
  | cons alt0 rest => cases a <;> rfl

theorem commandNotFound_outcome_indep {V E : Type} (st st' : HookManager.State V E)
    (cfg : CNFConfig) (opts : CNFOpts) (p a : PromptResult) :
    (commandNotFound st cfg opts p a).outcome = (commandNotFound st' cfg opts p a).outcome := by
  unfold commandNotFound
  by_cases hid : opts.id = "--help".toList
  · rw [if_pos hid, if_pos hid]
  rw [if_neg hid, if_neg hid]
  by_cases hcmds : visibleIDs cfg = []
  · rw [if_pos hcmds, if_pos hcmds]
  rw [if_neg hcmds, if_neg hcmds]
  cases p with
  | confirmed => exact confirmedRun_outcome_indep st st' cfg opts
  | declined => exact declinedRun_outcome_indep st st' cfg opts a
  | failed => exact declinedRun_outcome_indep st st' cfg opts a

/-- C5: when the primary suggestion is confirmed, the executed command is
the suggestion and the argument vector is the original `argv` when it is
nonempty (unchanged — no extra or missing segments), otherwise the id's
`':'`-segments sliced past the portion consumed by the suggestion; when
the suggestion is help-shaped (`help:` prefix), the executed command is
forced to `help` and the remaining suggestion segments become the help
target. -/
theorem commandNotFound_primary_argv {V E : Type} (hookSt : HookManager.State V E)
    (cfg : CNFConfig) (opts : CNFOpts) (altResp : PromptResult)
    (hid : opts.id ≠ "--help".toList)
    (hhelp : opts.id ≠ "help".toList)
    (hcmds : visibleIDs cfg ≠ []) :
    (strStartsWith (primarySuggestion cfg opts) "help:".toList = false →
      (commandNotFound hookSt cfg opts .confirmed altResp).outcome =
        .resolved (primarySuggestion cfg opts)
          (if opts.argv ≠ [] then opts.argv
           else (splitChar ':' opts.id).drop
             (splitChar ':' (primarySuggestion cfg opts)).length)) ∧
    (opts.argv ≠ [] → strStartsWith (primarySuggestion cfg opts) "help:".toList = false →
      (commandNotFound hookSt cfg opts .confirmed altResp).outcome =
        .resolved (primarySuggestion cfg opts) opts.argv) ∧
    (strStartsWith (primarySuggestion cfg opts) "help:".toList = true →
      (commandNotFound hookSt cfg opts .confirmed altResp).outcome =
        .resolved "help".toList ((splitChar ':' (primarySuggestion cfg opts)).drop 1)) := by
  have hrun := commandNotFound_eq_confirmedRun hookSt cfg opts altResp hid hcmds
  refine ⟨?_, ?_, ?_⟩
  · intro hfalse
    rw [hrun]
    unfold confirmedRun
    rw [if_neg hhelp]
    dsimp only
    rw [hfalse]
    simp only [Bool.false_eq_true, if_false]
  · intro hargv hfalse
    rw [hrun]
    unfold confirmedRun
    rw [if_neg hhelp]
    dsimp only
    rw [hfalse]
    simp only [Bool.false_eq_true, if_false, if_pos hargv]
  · intro htrue
    rw [hrun]
    unfold confirmedRun
    rw [if_neg hhelp]
    dsimp only
    rw [htrue]
    simp only [if_true]

/-- End-to-end input for the C5 witness: visible commands
`config:set`, `config:get`, `help`; typed id `confi:set`. -/
def demoCNFConfig : CNFConfig :=
  { commandIDs := ["config:set".toList, "config:get".toList, "help".toList], commands := [] }

set_option maxRecDepth 4000 in
/-- Witness for C5: with id `confi:set` and empty argv the primary
suggestion is `config:set` and confirming resolves to `config:set` with
the remaining argument vector unchanged (empty — both segments of the id
were consumed); with argv `["foo-bar"]` the vector is passed through
unchanged. -/
theorem commandNotFound_primary_argv_witness :
    primarySuggestion demoCNFConfig ⟨"confi:set".toList, []⟩ = "config:set".toList ∧
    (commandNotFound ([] : HookManager.State Nat Nat) demoCNFConfig
      ⟨"confi:set".toList, []⟩ .confirmed .declined).outcome =
      .resolved "config:set".toList [] ∧
    (commandNotFound ([] : HookManager.State Nat Nat) demoCNFConfig
      ⟨"confi:set".toList, ["foo-bar".toList]⟩ .confirmed .declined).outcome =
      .resolved "config:set".toList ["foo-bar".toList] :=
  ⟨by decide,
    by
      have h := (commandNotFound_primary_argv ([] : HookManager.State Nat Nat) demoCNFConfig
        ⟨"confi:set".toList, []⟩ .declined (by decide) (by decide) (by decide)).1 (by decide)
      rw [h]
      decide,
    (commandNotFound_primary_argv ([] : HookManager.State Nat Nat) demoCNFConfig
      ⟨"confi:set".toList, ["foo-bar".toList]⟩ .declined (by decide) (by decide)
      (by decide)).2.1 (by decide) (by decide)⟩

theorem declinedRun_eq_failRun {V E : Type} (hookSt : HookManager.State V E)
    (cfg : CNFConfig) (opts : CNFOpts) (a : PromptResult)
    (h : altSuggestions cfg opts = [] ∨ a ≠ .confirmed) :
    declinedRun hookSt cfg opts a = failRun hookSt cfg opts := by
  unfold declinedRun
  rcases h with hnil | hna
  · cases a <;> (rw [hnil]; try rfl)
  · cases halt : altSuggestions cfg opts with
    | nil => cases a <;> rfl
    | cons alt0 rest =>
      cases a with
      | confirmed => exact absurd rfl hna
      | declined => rfl
      | failed => rfl

theorem declinedRun_resolved {V E : Type} (hookSt : HookManager.State V E)
    (cfg : CNFConfig) (opts : CNFOpts) {alt0 : Str} {rest : List Str}
    (halt : altSuggestions cfg opts = alt0 :: rest) :
    (declinedRun hookSt cfg opts .confirmed).outcome = .resolved alt0 opts.argv := by
  unfold declinedRun
  rw [halt]

theorem confirmedRun_not_fatal {V E : Type} (hookSt : HookManager.State V E)
    (cfg : CNFConfig) (opts : CNFOpts) (c : Nat) :
    (confirmedRun hookSt cfg opts).outcome ≠ .fatal c := by
  unfold confirmedRun
  by_cases hh : opts.id = "help".toList
  · rw [if_pos hh]
    exact fun hc => CNFOutcome.noConfusion hc
  · rw [if_neg hh]
    exact fun hc => CNFOutcome.noConfusion hc

/-- C7: the workflow reaches exit status 127 exactly when neither early
return applies, the primary prompt was not confirmed, and there either is
no alternative suggestion or the alternative prompt was not confirmed
either; in that state an error describing the unresolved command is
stored into the `HookContext` and the `error` hook is fired; the fatal
exit status is always 127; and the outcome never depends on the
registered hook chains (the firing is best-effort and isolated). -/
theorem commandNotFound_fail_conditions {V E : Type} (hookSt : HookManager.State V E)
    (cfg : CNFConfig) (opts : CNFOpts) (p a : PromptResult) :
    ((commandNotFound hookSt cfg opts p a).outcome = .fatal 127 ↔
      opts.id ≠ "--help".toList ∧ visibleIDs cfg ≠ [] ∧ p ≠ .confirmed ∧
        (altSuggestions cfg opts = [] ∨ a ≠ .confirmed)) ∧
    (∀ c, (commandNotFound hookSt cfg opts p a).outcome = .fatal c → c = 127) ∧
    ((commandNotFound hookSt cfg opts p a).outcome = .fatal 127 →
      (commandNotFound hookSt cfg opts p a).events =
        startEvents hookSt opts ++
          [.ctxSet "error".toList (.errVal ("Command not found: ".toList ++ opts.id)),
           .hookFired "error".toList (HookManager.execute hookSt "error".toList)]) ∧
    (∀ hookSt' : HookManager.State V E,
      (commandNotFound hookSt' cfg opts p a).outcome =
        (commandNotFound hookSt cfg opts p a).outcome) := by
  by_cases hid : opts.id = "--help".toList
  · have hrun : commandNotFound hookSt cfg opts p a =
        { outcome := .helped, events := startEvents hookSt opts } := by
      unfold commandNotFound
      rw [if_pos hid]
    refine ⟨?_, ?_, ?_, fun st' => commandNotFound_outcome_indep st' hookSt cfg opts p a⟩
    · rw [hrun]
      constructor
      · intro hc
        exact CNFOutcome.noConfusion hc
      · rintro ⟨h1, -, -, -⟩
        exact absurd hid h1
    · intro c hc
      rw [hrun] at hc
      exact CNFOutcome.noConfusion hc
    · intro hc
      rw [hrun] at hc
      exact CNFOutcome.noConfusion hc
  by_cases hcmds : visibleIDs cfg = []
  · have hrun : commandNotFound hookSt cfg opts p a =
        { outcome := .empty, events := startEvents hookSt opts } := by
      unfold commandNotFound
      rw [if_neg hid, if_pos hcmds]
    refine ⟨?_, ?_, ?_, fun st' => commandNotFound_outcome_indep st' hookSt cfg opts p a⟩
    · rw [hrun]
      constructor
      · intro hc
        exact CNFOutcome.noConfusion hc
      · rintro ⟨-, h2, -, -⟩
        exact absurd hcmds h2
    · intro c hc
      rw [hrun] at hc
      exact CNFOutcome.noConfusion hc
    · intro hc
      rw [hrun] at hc
      exact CNFOutcome.noConfusion hc
  by_cases hp : p = .confirmed
  · subst hp
    have hrun := commandNotFound_eq_confirmedRun hookSt cfg opts a hid hcmds
    refine ⟨?_, ?_, ?_, fun st' => commandNotFound_outcome_indep st' hookSt cfg opts _ a⟩
    · rw [hrun]
      constructor
      · intro hc
        exact absurd hc (confirmedRun_not_fatal hookSt cfg opts 127)
      · rintro ⟨-, -, h3, -⟩
        exact absurd rfl h3
    · intro c hc
      rw [hrun] at hc
      exact absurd hc (confirmedRun_not_fatal hookSt cfg opts c)
    · intro hc
      rw [hrun] at hc
      exact absurd hc (confirmedRun_not_fatal hookSt cfg opts 127)
  have hrun := commandNotFound_eq_declinedRun hookSt cfg opts p a hid hcmds hp
  by_cases hna : altSuggestions cfg opts = [] ∨ a ≠ .confirmed
  · have hfail := declinedRun_eq_failRun hookSt cfg opts a hna
    refine ⟨?_, ?_, ?_, fun st' => commandNotFound_outcome_indep st' hookSt cfg opts p a⟩
    · rw [hrun, hfail]
      exact ⟨fun _ => ⟨hid, hcmds, hp, hna⟩, fun _ => rfl⟩
    · intro c hc
      rw [hrun, hfail] at hc
      have h127 : CNFOutcome.fatal 127 = CNFOutcome.fatal c := hc
      injection h127 with h
      omega
    · intro _
      rw [hrun, hfail]
      rfl
  · push_neg at hna
    obtain ⟨halts, haconf⟩ := hna
    cases halt : altSuggestions cfg opts with
    | nil => exact absurd halt halts
    | cons alt0 rest =>
      subst haconf
      have hres := declinedRun_resolved hookSt cfg opts halt
      refine ⟨?_, ?_, ?_, fun st' => commandNotFound_outcome_indep st' hookSt cfg opts p _⟩
      · rw [hrun]
        constructor
        · intro hc
          rw [hres] at hc
          exact CNFOutcome.noConfusion hc
        · rintro ⟨-, -, -, h4⟩
          rcases h4 with hnil | hne
          · exact List.noConfusion hnil
          · exact absurd rfl hne
      · intro c hc
        rw [hrun, hres] at hc
        exact CNFOutcome.noConfusion hc
      · intro hc
        rw [hrun, hres] at hc
        exact CNFOutcome.noConfusion hc

set_option maxRecDepth 4000 in
/-- Witness for C7: id `zzzz` against the demo commands, primary and
alternative prompts declined, gives the fatal outcome with status 127,
the error written into the context, and the `error` hook fired. -/
theorem commandNotFound_fail_conditions_witness :
    (commandNotFound ([] : HookManager.State Nat Nat) demoCNFConfig
      ⟨"zzzz".toList, []⟩ .declined .declined).outcome = .fatal 127 ∧
    (commandNotFound ([] : HookManager.State Nat Nat) demoCNFConfig
      ⟨"zzzz".toList, []⟩ .declined .declined).events =
      startEvents ([] : HookManager.State Nat Nat) ⟨"zzzz".toList, []⟩ ++
        [.ctxSet "error".toList (.errVal ("Command not found: ".toList ++ "zzzz".toList)),
         .hookFired "error".toList
           (HookManager.execute ([] : HookManager.State Nat Nat) "error".toList)] :=
  ⟨((commandNotFound_fail_conditions ([] : HookManager.State Nat Nat) demoCNFConfig
      ⟨"zzzz".toList, []⟩ .declined .declined).1).mpr
      ⟨by decide, by decide, by decide, Or.inr (by decide)⟩,
    (commandNotFound_fail_conditions ([] : HookManager.State Nat Nat) demoCNFConfig
      ⟨"zzzz".toList, []⟩ .declined .declined).2.2.1
      (((commandNotFound_fail_conditions ([] : HookManager.State Nat Nat) demoCNFConfig
        ⟨"zzzz".toList, []⟩ .declined .declined).1).mpr
        ⟨by decide, by decide, by decide, Or.inr (by decide)⟩)⟩

/-! ### Plugin loader, user-config phase (C4) -/

/-- A plugin module's default export: its declared name and whether its
`register` member is a function (the loader's shape validation). -/
structure Plugin where
  name : Str
  hasRegister : Bool
deriving DecidableEq

/-- Modelled from the spec: `PluginRegistry` is not under `src/` (only
its callers are).  §4.1: `registerPlugin(plugin)` inserts or overwrites
by name; at most one plugin per name; `getAllPlugins()` is a snapshot in
registration order. -/
def registerPlugin : List Plugin → Plugin → List Plugin
  | [], p => [p]
  | q :: rest, p => if q.name = p.name then p :: rest else q :: registerPlugin rest p

/-- Modelled from the spec: `getPlugin(name)` returns the plugin or an
absent value. -/
def getPlugin (reg : List Plugin) (name : Str) : Option Plugin :=
  reg.find? (fun p => p.name = name)

/-- The convention prefix `asyncapi-cli-plugin-` (`MODULE_PREFIX`). -/
def modulePfx : Str := "asyncapi-cli-plugin-".toList

/-- The loader's environment: `resolver` models `await import(spec)`
(`some` = the module's default export, `none` = resolution failure or no
default export), `pathResolve` models
`path.resolve(path.dirname(result.filepath), pluginName)`. -/
structure LoaderEnv where
  resolver : Str → Option Plugin
  pathResolve : Str → Str

/-- One `{ enabled, ... }` value of the config's `plugins` mapping. -/
structure PluginConfigEntry where
  enabled : Bool
deriving DecidableEq

/-- The import specifier the loader uses for a non-path identifier:
auto-prefixed with the convention prefix unless already present. -/
def resolvedModule (pluginName : Str) : Str :=
  if strStartsWith pluginName modulePfx then pluginName else modulePfx ++ pluginName

/-- Import a module and register its default export when it passes shape
validation (`plugin.default && typeof plugin.default.register === 'function'`);
the returned list records the import that was attempted. -/
def importAndRegister (env : LoaderEnv) (reg : List Plugin) (loads : List Str) (spec : Str) :
    List Plugin × List Str :=
  match env.resolver spec with
  | some p => if p.hasRegister then (registerPlugin reg p, loads ++ [spec])
              else (reg, loads ++ [spec])
  | none => (reg, loads ++ [spec])

/-- One iteration of `loadUserConfigPlugins`'s entry loop: skip disabled
entries; load path identifiers from the resolved path; otherwise, when no
plugin is registered under the raw identifier, import the auto-prefixed
package. -/
def processUserEntry (env : LoaderEnv) (st : List Plugin × List Str)
    (entry : Str × PluginConfigEntry) : List Plugin × List Str :=
  if entry.2.enabled then
    if strStartsWith entry.1 "./".toList || strStartsWith entry.1 "/".toList then
      importAndRegister env st.1 st.2 (env.pathResolve entry.1)
    else if (getPlugin st.1 entry.1).isNone then
      importAndRegister env st.1 st.2 (resolvedModule entry.1)
    else st
  else st

/-- The user-declared discovery phase over the `plugins` mapping of the
configuration document. -/
def loadUserConfigPlugins (env : LoaderEnv) (reg0 : List Plugin)
    (entries : List (Str × PluginConfigEntry)) : List Plugin × List Str :=
  entries.foldl (processUserEntry env) (reg0, [])

/-- Environment for the C4 counterexample: the only resolvable module is
`asyncapi-cli-plugin-foo`, a valid plugin declaring that same name. -/
def demoLoaderEnv : LoaderEnv :=
  { resolver := fun spec =>
      if spec = "asyncapi-cli-plugin-foo".toList then
        some { name := "asyncapi-cli-plugin-foo".toList, hasRegister := true }
      else none,
    pathResolve := fun s => s }

/-- A registry that already holds the plugin named
`asyncapi-cli-plugin-foo` (say from the shared-package-directory phase). -/
def demoReg0 : List Plugin :=
  [{ name := "asyncapi-cli-plugin-foo".toList, hasRegister := true }]

/-- Counterexample to C4 as stated: the enabled entry `foo` resolves to
the package name `asyncapi-cli-plugin-foo`, and a plugin of that resolved
name is already registered — yet the loader still imports the module,
because its skip check consults the registry under the raw identifier
`foo`, not under the resolved name. -/
theorem loadUserConfigPlugins_counterexample :
    resolvedModule "foo".toList = "asyncapi-cli-plugin-foo".toList ∧
    getPlugin demoReg0 (resolvedModule "foo".toList) ≠ none ∧
    (loadUserConfigPlugins demoLoaderEnv demoReg0 [("foo".toList, ⟨true⟩)]).2 =
      ["asyncapi-cli-plugin-foo".toList] := by
  refine ⟨by decide, by decide, by decide⟩

/-- C4 (amended): for an enabled non-path entry the loader treats the
identifier as a package name, auto-prefixes it with
`asyncapi-cli-plugin-` unless the prefix is already present, and skips
the import exactly when a plugin is already registered under the
*original* config identifier (which coincides with the resolved name only
when the identifier already carries the prefix). -/
theorem loadUserConfigPlugins_amended (env : LoaderEnv) (reg : List Plugin)
    (loads : List Str) (pluginName : Str) (config : PluginConfigEntry)
    (hen : config.enabled = true)
    (hpath : (strStartsWith pluginName "./".toList || strStartsWith pluginName "/".toList)
      = false) :
    (getPlugin reg pluginName ≠ none →
      processUserEntry env (reg, loads) (pluginName, config) = (reg, loads)) ∧
    (getPlugin reg pluginName = none →
      (processUserEntry env (reg, loads) (pluginName, config)).2 =
        loads ++ [if strStartsWith pluginName modulePfx then pluginName
                  else modulePfx ++ pluginName]) := by
  constructor
  · intro hreg
    unfold processUserEntry
    rw [if_pos hen, if_neg (by rw [hpath]; decide)]
    rw [if_neg (by rw [Option.isNone_iff_eq_none]; exact hreg)]
  · intro hreg
    unfold processUserEntry
    rw [if_pos hen, if_neg (by rw [hpath]; decide)]
    rw [if_pos (by rw [Option.isNone_iff_eq_none]; exact hreg)]
    unfold importAndRegister resolvedModule
    cases henv : env.resolver (if strStartsWith pluginName modulePfx then pluginName
        else modulePfx ++ pluginName) with
    | none => rfl
    | some p =>
      by_cases hr : p.hasRegister <;> simp [hr]

/-- Witness for the amended C4: with `foo` already registered under the
raw identifier, the entry is skipped (no import, registry unchanged);
with an empty registry, the import uses the auto-prefixed specifier. -/
theorem loadUserConfigPlugins_amended_witness :
    processUserEntry demoLoaderEnv
      ([{ name := "foo".toList, hasRegister := true }], []) ("foo".toList, ⟨true⟩) =
      ([{ name := "foo".toList, hasRegister := true }], []) ∧
    (processUserEntry demoLoaderEnv ([], []) ("foo".toList, ⟨true⟩)).2 =
      [if strStartsWith "foo".toList modulePfx then "foo".toList
       else modulePfx ++ "foo".toList] :=
  ⟨(loadUserConfigPlugins_amended demoLoaderEnv
      [{ name := "foo".toList, hasRegister := true }] [] "foo".toList ⟨true⟩
      rfl (by decide)).1 (by decide),
    by
      have h := (loadUserConfigPlugins_amended demoLoaderEnv [] [] "foo".toList ⟨true⟩
        rfl (by decide)).2 (by decide)
      rw [h]
      rfl⟩
